import Mathlib

/-!
Shallow embedding of the `estoque_bovino` repository (beef-stock allocation
system) and verification of its specification claims.

Sources embedded:
- `src/sistema_estoque.py`       : namespace `SE` (permissive sale policy)
- `src/backup/sistema_estoque copy.py` : namespace `BK` (strict sale policy,
  percentage recalibration)
- `src/relacao_diaria.py`        : namespace `RD` (strict sale policy with
  shortfall analyzer) and the FIFO cut allocator at the top of that file.

Conventions: Python floats are modelled as `ℚ`; `datetime` values (parsed
date-only, `%d/%m/%y`) as day numbers `ℕ`; Python dicts as association
lists in insertion order.  Python division raises `ZeroDivisionError` on a
zero denominator whereas `ℚ` division totalises it to `0`; wherever this
matters it is noted and no claim is settled through the `x / 0 = 0`
convention.
-/

/-- Movement kind: `'E'` (entrada/intake) or `'S'` (saída/sale). -/
inductive Tipo where
  | E : Tipo
  | S : Tipo
deriving DecidableEq

/-- `Movimentacao` dataclass: date, kind, quantity, balance after. -/
structure Movimentacao where
  data : ℕ
  tipo : Tipo
  quantidade : ℚ
  saldo_apos : ℚ
deriving DecidableEq

namespace SE

/-- `Produto` dataclass of `sistema_estoque.py` (permissive variant):
includes the `maior_falta_estoque` tracking fields. -/
structure Produto where
  codigo : ℕ
  descricao : String
  percentual : ℚ
  saldo_atual : ℚ
  movimentacoes : List Movimentacao
  maior_falta_estoque : ℚ
  data_maior_falta_estoque : Option ℕ
deriving DecidableEq

/-- `Produto.__post_init__` state for a freshly configured product. -/
def inicial (codigo : ℕ) (descricao : String) (percentual : ℚ) : Produto :=
  ⟨codigo, descricao, percentual, 0, [], 0, none⟩

/-- `Produto.registrar_entrada` (sistema_estoque.py, lines 29-33). -/
def registrar_entrada (p : Produto) (data : ℕ) (quantidade : ℚ) : Produto :=
  { p with
    saldo_atual := p.saldo_atual + quantidade
    movimentacoes := p.movimentacoes
      ++ [⟨data, Tipo.E, quantidade, p.saldo_atual + quantidade⟩] }

/-- `Produto.registrar_saida` (sistema_estoque.py, lines 35-43): the
decrement and the movement append are unconditional; the returned flag is
`false` exactly when `quantidade > saldo_atual`. -/
def registrar_saida (p : Produto) (data : ℕ) (quantidade : ℚ) : Produto × Bool :=
  let flag := if p.saldo_atual < quantidade then false else true
  ({ p with
      saldo_atual := p.saldo_atual - quantidade
      movimentacoes := p.movimentacoes
        ++ [⟨data, Tipo.S, quantidade, p.saldo_atual - quantidade⟩] }, flag)

/-- `Produto.total_entradas` property. -/
def total_entradas (p : Produto) : ℚ :=
  ((p.movimentacoes.filter (fun m => decide (m.tipo = Tipo.E))).map
    (fun m => m.quantidade)).sum

/-- `Produto.total_saidas` property. -/
def total_saidas (p : Produto) : ℚ :=
  ((p.movimentacoes.filter (fun m => decide (m.tipo = Tipo.S))).map
    (fun m => m.quantidade)).sum

end SE

namespace BK

/-- `Produto` dataclass of the backup copy (strict variant, no tracking). -/
structure Produto where
  codigo : ℕ
  descricao : String
  percentual : ℚ
  saldo_atual : ℚ
  movimentacoes : List Movimentacao
deriving DecidableEq

/-- Freshly configured product (backup copy `__post_init__`). -/
def inicial (codigo : ℕ) (descricao : String) (percentual : ℚ) : Produto :=
  ⟨codigo, descricao, percentual, 0, []⟩

/-- `Produto.registrar_entrada` (backup copy, lines 26-30). -/
def registrar_entrada (p : Produto) (data : ℕ) (quantidade : ℚ) : Produto :=
  { p with
    saldo_atual := p.saldo_atual + quantidade
    movimentacoes := p.movimentacoes
      ++ [⟨data, Tipo.E, quantidade, p.saldo_atual + quantidade⟩] }

/-- `Produto.registrar_saida` (backup copy, lines 32-39): strict policy —
the decrement and the append happen only when `saldo_atual >= quantidade`;
otherwise the product is returned unchanged with flag `false`. -/
def registrar_saida (p : Produto) (data : ℕ) (quantidade : ℚ) : Produto × Bool :=
  if p.saldo_atual ≥ quantidade then
    ({ p with
        saldo_atual := p.saldo_atual - quantidade
        movimentacoes := p.movimentacoes
          ++ [⟨data, Tipo.S, quantidade, p.saldo_atual - quantidade⟩] }, true)
  else
    (p, false)

/-- `Produto.total_entradas` property. -/
def total_entradas (p : Produto) : ℚ :=
  ((p.movimentacoes.filter (fun m => decide (m.tipo = Tipo.E))).map
    (fun m => m.quantidade)).sum

/-- `Produto.total_saidas` property. -/
def total_saidas (p : Produto) : ℚ :=
  ((p.movimentacoes.filter (fun m => decide (m.tipo = Tipo.S))).map
    (fun m => m.quantidade)).sum

end BK

namespace RD

/-- `Produto` dataclass of `relacao_diaria.py` (strict variant with the
shortfall analyzer fields). `vendas_negativas_por_dia` is the per-day
attempt-count dict, modelled as an association list in insertion order. -/
structure Produto where
  codigo : ℕ
  descricao : String
  percentual : ℚ
  saldo_atual : ℚ
  movimentacoes : List Movimentacao
  tentativa_venda_negativa : Bool
  total_falta_estoque : ℚ
  vendas_negativas_por_dia : List (ℕ × ℕ)
  dia_mais_vendas_negativas : Option ℕ
  qtd_vendas_negativas_no_dia : ℕ
  falta_no_dia_mais_vendas_negativas : ℚ
deriving DecidableEq

/-- Freshly configured product (`relacao_diaria.py` `__post_init__`). -/
def inicial (codigo : ℕ) (descricao : String) (percentual : ℚ) : Produto :=
  ⟨codigo, descricao, percentual, 0, [], false, 0, [], none, 0, 0⟩

/-- `Produto.registrar_entrada` (`relacao_diaria.py`, lines 126-130). -/
def registrar_entrada (p : Produto) (data : ℕ) (quantidade : ℚ) : Produto :=
  { p with
    saldo_atual := p.saldo_atual + quantidade
    movimentacoes := p.movimentacoes
      ++ [⟨data, Tipo.E, quantidade, p.saldo_atual + quantidade⟩] }

/-- Dict update `d[k] = v` on an insertion-ordered association list. -/
def dictSet (m : List (ℕ × ℕ)) (k : ℕ) (v : ℕ) : List (ℕ × ℕ) :=
  if (m.lookup k).isSome then
    m.map (fun e => if e.1 = k then (k, v) else e)
  else
    m ++ [(k, v)]

/-- `Produto.registrar_saida` (`relacao_diaria.py`, lines 132-157): strict
policy plus the shortfall analyzer.  On failure it records
`falta = quantidade - saldo_atual`, bumps the per-day attempt count, and
updates the tracked worst day.  `data` is already a day number, so the
source's `data_sem_hora` truncation is the identity here. -/
def registrar_saida (p : Produto) (data : ℕ) (quantidade : ℚ) : Produto × Bool :=
  if p.saldo_atual ≥ quantidade then
    ({ p with
        saldo_atual := p.saldo_atual - quantidade
        movimentacoes := p.movimentacoes
          ++ [⟨data, Tipo.S, quantidade, p.saldo_atual - quantidade⟩] }, true)
  else
    let falta := quantidade - p.saldo_atual
    let qtd_atual := ((p.vendas_negativas_por_dia.lookup data).getD 0) + 1
    let p1 := { p with
      tentativa_venda_negativa := true
      total_falta_estoque := p.total_falta_estoque + falta
      vendas_negativas_por_dia := dictSet p.vendas_negativas_por_dia data qtd_atual }
    if p.dia_mais_vendas_negativas = none ∨ qtd_atual > p.qtd_vendas_negativas_no_dia then
      ({ p1 with
          dia_mais_vendas_negativas := some data
          qtd_vendas_negativas_no_dia := qtd_atual
          falta_no_dia_mais_vendas_negativas := falta }, false)
    else if p.dia_mais_vendas_negativas = some data then
      ({ p1 with
          falta_no_dia_mais_vendas_negativas :=
            p.falta_no_dia_mais_vendas_negativas + falta }, false)
    else
      (p1, false)

/-- `Produto.total_entradas` property. -/
def total_entradas (p : Produto) : ℚ :=
  ((p.movimentacoes.filter (fun m => decide (m.tipo = Tipo.E))).map
    (fun m => m.quantidade)).sum

/-- `Produto.total_saidas` property. -/
def total_saidas (p : Produto) : ℚ :=
  ((p.movimentacoes.filter (fun m => decide (m.tipo = Tipo.S))).map
    (fun m => m.quantidade)).sum

/-- `ControladorEstoque.encontrar_entrada_do_dia` (`relacao_diaria.py`,
lines 222-236): the intake registered for the given day, otherwise the one
of the closest earlier day, otherwise the `0.0` sentinel.
`entradas_por_data` is the controller's day-keyed intake dict. -/
def encontrar_entrada_do_dia (entradas_por_data : List (ℕ × ℚ)) (data : ℕ) : ℚ :=
  match entradas_por_data.lookup data with
  | some q => q
  | none =>
    let datas_anteriores := (entradas_por_data.map Prod.fst).filter (fun d => decide (d < data))
    match datas_anteriores.max? with
    | some data_mais_proxima => (entradas_por_data.lookup data_mais_proxima).getD 0
    | none => 0

end RD

/-- One row of `movimentacoes_ordenadas`: the tuple
`(tipo, data, quantidade, codigo)` built by `carregar_movimentacoes`
(`codigo` is `None` for intakes). -/
structure Evento where
  tipo : Tipo
  data : ℕ
  quantidade : ℚ
  codigo : Option ℕ
deriving DecidableEq

/-- Sort key of `sorted(entradas + vendas, key=lambda x: x[1])`:
comparison on the date alone. -/
def leData (a b : Evento) : Bool := decide (a.data ≤ b.data)

/-- The movement merger of `carregar_movimentacoes` (sistema_estoque.py
lines 79-108; identically in the backup copy and `relacao_diaria.py`):
the intake list concatenated before the sale list, then a stable sort on
the date key only (Python's `sorted` is stable; modelled by `mergeSort`,
which is stable). -/
def carregar_movimentacoes (entradas vendas : List Evento) : List Evento :=
  (entradas ++ vendas).mergeSort leData

namespace SE

/-- Sale branch of `ControladorEstoque.processar_movimentacoes`
(sistema_estoque.py, lines 120-134): apply `registrar_saida`; when it
returns `False`, raise the controller alert flag and update the product's
`maior_falta_estoque` / `data_maior_falta_estoque` tracking pair. -/
def processar_venda (p : Produto) (data : ℕ) (quantidade : ℚ) : Produto × Bool :=
  let r := registrar_saida p data quantidade
  if r.2 then
    (r.1, false)
  else
    let p' := r.1
    let p'' :=
      if p'.maior_falta_estoque > p'.saldo_atual then
        { p' with
            maior_falta_estoque := p'.saldo_atual
            data_maior_falta_estoque := some data }
      else p'
    (p'', true)

/-- One iteration of `processar_movimentacoes` (sistema_estoque.py, lines
110-134) over the state `(produtos, tem_alertas_estoque)`.  An intake is
fanned out to every product with `quantidade * percentual / 100`; a sale
goes to the product with the matching code (dict keys are unique). -/
def processar_um (st : List Produto × Bool) (ev : Evento) : List Produto × Bool :=
  match ev.tipo with
  | Tipo.E =>
    (st.1.map (fun p => registrar_entrada p ev.data (ev.quantidade * p.percentual / 100)),
     st.2)
  | Tipo.S =>
    let resultados := st.1.map (fun p =>
      if ev.codigo = some p.codigo then processar_venda p ev.data ev.quantidade
      else (p, false))
    (resultados.map Prod.fst, st.2 || resultados.any Prod.snd)

/-- `ControladorEstoque.processar_movimentacoes`: fold the ordered merged
sequence through `processar_um`, starting with no alerts. -/
def processar_movimentacoes (produtos : List Produto) (ordenadas : List Evento) :
    List Produto × Bool :=
  ordenadas.foldl processar_um (produtos, false)

/-- `ControladorEstoque.calcular_entradas_ate_data` (sistema_estoque.py,
lines 225-248): the sum of all recorded intakes with day `≤ data_limite`,
over the day-keyed `entradas_por_data` dict. -/
def calcular_entradas_ate_data (entradas_por_data : List (ℕ × ℚ)) (data_limite : ℕ) : ℚ :=
  ((entradas_por_data.filter (fun e => decide (e.1 ≤ data_limite))).map
    (fun e => e.2)).sum

/-- `ControladorEstoque.calcula_percentual_falta` (sistema_estoque.py,
lines 206-223): `ceil(((maior_falta * -100) / entradas_ate_data) * 100) / 100`.
Python raises `ZeroDivisionError` when `entradas_ate_data` is `0`; here the
quotient totalises to `0`, and no claim is settled through that case. -/
def calcula_percentual_falta (maior_falta_estoque : ℚ)
    (entradas_por_data : List (ℕ × ℚ)) (data_limite : ℕ) : ℚ :=
  let percentual_falta :=
    (maior_falta_estoque * -100) / calcular_entradas_ate_data entradas_por_data data_limite
  (⌈percentual_falta * 100⌉ : ℚ) / 100

end SE

/-- Python's `round` to an integer: round-half-to-even. -/
def roundHalfEven (x : ℚ) : ℤ :=
  if x - ⌊x⌋ < 1/2 then ⌊x⌋
  else if x - ⌊x⌋ > 1/2 then ⌊x⌋ + 1
  else if Even ⌊x⌋ then ⌊x⌋ else ⌊x⌋ + 1

/-- Python's `round(x, 2)`. -/
def round2 (x : ℚ) : ℚ := (roundHalfEven (x * 100) : ℚ) / 100

namespace BK

/-- Count of `'S'` movements with a negative resulting balance
(`dias_com_problema` accumulator of `calcular_percentuais_ideais`,
backup copy lines 216-220). -/
def dias_com_problema (p : Produto) : ℕ :=
  (p.movimentacoes.filter
    (fun m => decide (m.tipo = Tipo.S) && decide (m.saldo_apos < 0))).length

/-- Sum of `abs(saldo_apos)` over those movements (`soma_problemas`). -/
def soma_problemas (p : Produto) : ℚ :=
  ((p.movimentacoes.filter
    (fun m => decide (m.tipo = Tipo.S) && decide (m.saldo_apos < 0))).map
    (fun m => |m.saldo_apos|)).sum

/-- First pass of `calcular_percentuais_ideais` (backup copy, lines
205-243): the per-product adjustment factor
`min(frequencia + gravidade, 0.5)`, `0` for products with no movements or
no problems; `gravidade` divides by `total_saidas` when positive, else `1`. -/
def ajuste_necessario (p : Produto) : ℚ :=
  if p.movimentacoes.length = 0 then 0
  else if dias_com_problema p = 0 then 0
  else
    let frequencia : ℚ := (dias_com_problema p : ℚ) / (p.movimentacoes.length : ℚ)
    let gravidade : ℚ :=
      soma_problemas p / (if total_saidas p > 0 then total_saidas p else 1)
    min (frequencia + gravidade) (1/2)

/-- Second pass (backup copy, lines 249-257): raw adjusted percentage. -/
def percentual_raw (p : Produto) : ℚ :=
  if ajuste_necessario p > 0 then p.percentual * (1 + ajuste_necessario p)
  else p.percentual

/-- `ControladorEstoque.calcular_percentuais_ideais` (backup copy, lines
193-293, the reachable path before the first `return`): adjust, normalise
by `total_atual / total_novo`, round each to 2 decimals; keyed by product
code in dict insertion order. -/
def calcular_percentuais_ideais (produtos : List Produto) : List (ℕ × ℚ) :=
  let total_atual := (produtos.map (fun p => p.percentual)).sum
  let total_novo := (produtos.map percentual_raw).sum
  let fator_normalizacao := total_atual / total_novo
  produtos.map (fun p => (p.codigo, round2 (percentual_raw p * fator_normalizacao)))

end BK

/-- Consumption tolerance `1e-9` of the FIFO allocation loop. -/
def eps : ℚ := 1 / 1000000000

/-- One allocation record appended by the FIFO loop
(`relacao_diaria.py`, lines 36-44): source lot index and quantity, the
sale (out-row) it serves, and the allocated amount.  The sale is
identified by its position `outIdx` in the chronologically sorted sale
list (standing for the row's date/code/description fields). -/
structure AllocRec where
  entryIdx : ℕ
  entryQty : ℚ
  outIdx : ℕ
  allocKg : ℚ
deriving DecidableEq

/-- Lot state of the FIFO loop: `(entry_idx, ENTRY_QTY, remain)`.  The
head of the list is the current lot with its remaining quantity; the
others still hold their full quantity. -/
def Lot : Type := ℕ × ℚ × ℚ

/-- Inner `while` of the FIFO loop (`relacao_diaria.py`, lines 34-50) for
one sale: while `need > 1e-9` and lots remain, take `min(need, remain)`
from the current lot, and advance to the next lot once its remainder drops
to `≤ 1e-9`.  (When `take` leaves `remain - take > eps`, then
`take = need`, so the source loop's next test `need > 1e-9` fails and it
exits — modelled here by returning directly.) -/
def allocSale (outIdx : ℕ) (need : ℚ) (lots : List Lot) : List AllocRec × List Lot :=
  match lots with
  | [] => ([], [])
  | (i, q, remain) :: rest =>
    if eps < need then
      let take := min need remain
      if remain - take ≤ eps then
        let p := allocSale outIdx (need - take) rest
        (⟨i, q, outIdx, take⟩ :: p.1, p.2)
      else
        ([⟨i, q, outIdx, take⟩], (i, q, remain - take) :: rest)
    else ([], lots)

/-- Outer `for` of the FIFO loop: the sales in chronological order, each
given by its position and quantity, threaded through the lot state. -/
def allocSales (vendas : List (ℕ × ℚ)) (lots : List Lot) : List AllocRec × List Lot :=
  match vendas with
  | [] => ([], lots)
  | (oi, need) :: rest =>
    let p := allocSale oi need lots
    let p2 := allocSales rest p.2
    (p.1 ++ p2.1, p2.2)

/-- Initial lot state: each intake row with its full quantity remaining
(`entry_idx = 0`, `remain = in_sorted.loc[0, 'QUANTIDADE']`, advancing). -/
def initLots (inQtys : List ℚ) : List Lot :=
  inQtys.enum.map (fun e => (e.1, e.2, e.2))

/-- The whole FIFO allocation pass over chronologically sorted intake
quantities and sale quantities: the `alloc` record list and the final lot
state. -/
def fifoAlloc (inQtys outQtys : List ℚ) : List AllocRec × List Lot :=
  allocSales outQtys.enum (initLots inQtys)

/-- Total quantity allocated from intake lot `i`. -/
def sumLot (i : ℕ) (recs : List AllocRec) : ℚ :=
  ((recs.filter (fun r => decide (r.entryIdx = i))).map (fun r => r.allocKg)).sum

/-- Total quantity allocated to sale `o`. -/
def sumSale (o : ℕ) (recs : List AllocRec) : ℚ :=
  ((recs.filter (fun r => decide (r.outIdx = o))).map (fun r => r.allocKg)).sum

/-- Remaining quantity of lot `i` in a lot state. -/
def remOf (i : ℕ) (lots : List Lot) : ℚ :=
  ((lots.filter (fun l => decide (l.1 = i))).map (fun l => l.2.2)).sum

/-- A single ledger operation on one product: an intake or a sale of a
given quantity on a given day (the per-product view of the replay). -/
structure Op where
  tipo : Tipo
  data : ℕ
  quantidade : ℚ
deriving DecidableEq

/-- Apply one operation to a `sistema_estoque.py` product (the returned
flag of a sale is dropped, as in the replay loop's state). -/
def SE.aplicar (p : SE.Produto) (op : Op) : SE.Produto :=
  match op.tipo with
  | Tipo.E => SE.registrar_entrada p op.data op.quantidade
  | Tipo.S => (SE.registrar_saida p op.data op.quantidade).1

/-- Apply one operation to a backup-copy (strict) product. -/
def BK.aplicar (p : BK.Produto) (op : Op) : BK.Produto :=
  match op.tipo with
  | Tipo.E => BK.registrar_entrada p op.data op.quantidade
  | Tipo.S => (BK.registrar_saida p op.data op.quantidade).1

/-- Modelled from the spec: the attribution percentage exactly as claim C5
words it — `ceil((missing / intake_quantity) * 100 * 100) / 100` where
`intake_quantity` is the most recent intake with day `≤` the worst day
(`encontrar_entrada_do_dia`), short-circuiting to the sentinel `0` when no
qualifying intake exists.  (Comparison definition only; the source
computes the percentage from `calcular_entradas_ate_data`.) -/
def claimPctFalta (missing : ℚ) (entradas_por_data : List (ℕ × ℚ)) (dia : ℕ) : ℚ :=
  let intake := RD.encontrar_entrada_do_dia entradas_por_data dia
  if intake = 0 then 0
  else (⌈missing / intake * 100 * 100⌉ : ℚ) / 100

/-- Modelled from the spec: the adjustment factor exactly as claim C8
words it — `min(frequency + severity, 0.5)` with
`severity = sum_of_negative_balances / total_sales` (no divisor guard),
`0` for products without shortfalls or without movements.  (Comparison
definition; the source guards the divisor with `if > 0 else 1`.) -/
def claimAjuste (p : BK.Produto) : ℚ :=
  if p.movimentacoes.length = 0 then 0
  else if BK.dias_com_problema p = 0 then 0
  else
    min ((BK.dias_com_problema p : ℚ) / (p.movimentacoes.length : ℚ)
      + BK.soma_problemas p / BK.total_saidas p) (1/2)

section LedgerLemmas

theorem seTotais_entrada (p : SE.Produto) (d : ℕ) (q : ℚ) :
    SE.total_entradas (SE.registrar_entrada p d q) = SE.total_entradas p + q ∧
    SE.total_saidas (SE.registrar_entrada p d q) = SE.total_saidas p := by
  constructor <;>
    simp [SE.total_entradas, SE.total_saidas, SE.registrar_entrada, List.filter_append]

theorem seTotais_saida (p : SE.Produto) (d : ℕ) (q : ℚ) :
    SE.total_entradas (SE.registrar_saida p d q).1 = SE.total_entradas p ∧
    SE.total_saidas (SE.registrar_saida p d q).1 = SE.total_saidas p + q := by
  constructor <;>
    simp [SE.total_entradas, SE.total_saidas, SE.registrar_saida, List.filter_append]

theorem seAplicar_inv (p : SE.Produto) (op : Op)
    (h : p.saldo_atual = SE.total_entradas p - SE.total_saidas p) :
    (SE.aplicar p op).saldo_atual
      = SE.total_entradas (SE.aplicar p op) - SE.total_saidas (SE.aplicar p op) := by
  cases hop : op.tipo with
  | E =>
    have ht := seTotais_entrada p op.data op.quantidade
    simp only [SE.aplicar, hop, ht.1, ht.2]
    simp [SE.registrar_entrada]
    linarith
  | S =>
    have ht := seTotais_saida p op.data op.quantidade
    simp only [SE.aplicar, hop, ht.1, ht.2]
    simp [SE.registrar_saida]
    linarith

theorem seFoldl_inv (ops : List Op) (p : SE.Produto)
    (h : p.saldo_atual = SE.total_entradas p - SE.total_saidas p) :
    (ops.foldl SE.aplicar p).saldo_atual
      = SE.total_entradas (ops.foldl SE.aplicar p)
        - SE.total_saidas (ops.foldl SE.aplicar p) := by
  induction ops generalizing p with
  | nil => simpa using h
  | cons op rest ih => exact ih (SE.aplicar p op) (seAplicar_inv p op h)

theorem bkTotais_entrada (p : BK.Produto) (d : ℕ) (q : ℚ) :
    BK.total_entradas (BK.registrar_entrada p d q) = BK.total_entradas p + q ∧
    BK.total_saidas (BK.registrar_entrada p d q) = BK.total_saidas p := by
  constructor <;>
    simp [BK.total_entradas, BK.total_saidas, BK.registrar_entrada, List.filter_append]

theorem bkAplicar_inv (p : BK.Produto) (op : Op)
    (h : p.saldo_atual = BK.total_entradas p - BK.total_saidas p) :
    (BK.aplicar p op).saldo_atual
      = BK.total_entradas (BK.aplicar p op) - BK.total_saidas (BK.aplicar p op) := by
  cases hop : op.tipo with
  | E =>
    have ht := bkTotais_entrada p op.data op.quantidade
    simp only [BK.aplicar, hop, ht.1, ht.2]
    simp [BK.registrar_entrada]
    linarith
  | S =>
    simp only [BK.aplicar, hop]
    by_cases hs : p.saldo_atual ≥ op.quantidade
    · have h1 : BK.total_entradas (BK.registrar_saida p op.data op.quantidade).1
          = BK.total_entradas p := by
        simp [BK.registrar_saida, hs, BK.total_entradas, List.filter_append]
      have h2 : BK.total_saidas (BK.registrar_saida p op.data op.quantidade).1
          = BK.total_saidas p + op.quantidade := by
        simp [BK.registrar_saida, hs, BK.total_saidas, List.filter_append]
      rw [h1, h2]
      simp [BK.registrar_saida, hs]
      linarith
    · simp [BK.registrar_saida, hs]
      exact h

theorem bkFoldl_inv (ops : List Op) (p : BK.Produto)
    (h : p.saldo_atual = BK.total_entradas p - BK.total_saidas p) :
    (ops.foldl BK.aplicar p).saldo_atual
      = BK.total_entradas (ops.foldl BK.aplicar p)
        - BK.total_saidas (ops.foldl BK.aplicar p) := by
  induction ops generalizing p with
  | nil => simpa using h
  | cons op rest ih => exact ih (BK.aplicar p op) (bkAplicar_inv p op h)

end LedgerLemmas

/-- C1: for every product and after every sequence of
`registrar_entrada`/`registrar_saida` operations, the current balance
`saldo_atual` equals `total_entradas - total_saidas`, under both the
strict (backup copy) and the permissive (`sistema_estoque.py`) sale
policy, including when the balance is negative. -/
theorem c1_ledger_invariant (ops : List Op) (codigo : ℕ) (descricao : String)
    (percentual : ℚ) :
    (ops.foldl SE.aplicar (SE.inicial codigo descricao percentual)).saldo_atual
      = SE.total_entradas (ops.foldl SE.aplicar (SE.inicial codigo descricao percentual))
        - SE.total_saidas (ops.foldl SE.aplicar (SE.inicial codigo descricao percentual)) ∧
    (ops.foldl BK.aplicar (BK.inicial codigo descricao percentual)).saldo_atual
      = BK.total_entradas (ops.foldl BK.aplicar (BK.inicial codigo descricao percentual))
        - BK.total_saidas (ops.foldl BK.aplicar (BK.inicial codigo descricao percentual)) := by
  constructor
  · exact seFoldl_inv ops _ (by simp [SE.inicial, SE.total_entradas, SE.total_saidas])
  · exact bkFoldl_inv ops _ (by simp [BK.inicial, BK.total_entradas, BK.total_saidas])

theorem rdSaida_fail (r : RD.Produto) (d : ℕ) (q : ℚ) (hr : ¬ r.saldo_atual ≥ q) :
    (RD.registrar_saida r d q).2 = false ∧
    (RD.registrar_saida r d q).1.saldo_atual = r.saldo_atual ∧
    (RD.registrar_saida r d q).1.movimentacoes = r.movimentacoes := by
  simp only [RD.registrar_saida, if_neg hr]
  split
  · exact ⟨rfl, rfl, rfl⟩
  · split
    · exact ⟨rfl, rfl, rfl⟩
    · exact ⟨rfl, rfl, rfl⟩

/-- C2: under the strict sale policy (backup copy and `relacao_diaria.py`),
`registrar_saida` returns `true`, appends the sale movement and decrements
the balance exactly when `saldo_atual ≥ quantidade`; when it returns
`false` the balance and the movement history are unchanged, and a
nonnegative balance can never become negative. -/
theorem c2_strict_saida (p : BK.Produto) (r : RD.Produto) (data : ℕ) (quantidade : ℚ) :
    ((BK.registrar_saida p data quantidade).2 = true ↔ quantidade ≤ p.saldo_atual) ∧
    (quantidade ≤ p.saldo_atual →
      (BK.registrar_saida p data quantidade).1.saldo_atual = p.saldo_atual - quantidade ∧
      (BK.registrar_saida p data quantidade).1.movimentacoes
        = p.movimentacoes ++ [⟨data, Tipo.S, quantidade, p.saldo_atual - quantidade⟩]) ∧
    (¬ quantidade ≤ p.saldo_atual → (BK.registrar_saida p data quantidade).1 = p) ∧
    (0 ≤ p.saldo_atual → 0 ≤ (BK.registrar_saida p data quantidade).1.saldo_atual) ∧
    ((RD.registrar_saida r data quantidade).2 = true ↔ quantidade ≤ r.saldo_atual) ∧
    (quantidade ≤ r.saldo_atual →
      (RD.registrar_saida r data quantidade).1.saldo_atual = r.saldo_atual - quantidade ∧
      (RD.registrar_saida r data quantidade).1.movimentacoes
        = r.movimentacoes ++ [⟨data, Tipo.S, quantidade, r.saldo_atual - quantidade⟩]) ∧
    (¬ quantidade ≤ r.saldo_atual →
      (RD.registrar_saida r data quantidade).1.saldo_atual = r.saldo_atual ∧
      (RD.registrar_saida r data quantidade).1.movimentacoes = r.movimentacoes) := by
  refine ⟨?_, ?_, ?_, ?_, ?_, ?_, ?_⟩
  · by_cases hp : p.saldo_atual ≥ quantidade <;> simp [BK.registrar_saida, hp]
  · intro h
    simp [BK.registrar_saida, show p.saldo_atual ≥ quantidade from h]
  · intro h
    simp [BK.registrar_saida, show ¬ p.saldo_atual ≥ quantidade from h]
  · intro h0
    by_cases hp : p.saldo_atual ≥ quantidade
    · simp [BK.registrar_saida, hp]
    · simp [BK.registrar_saida, hp]
      exact h0
  · by_cases hr : r.saldo_atual ≥ quantidade
    · simp [RD.registrar_saida, hr]
    · have hf := rdSaida_fail r data quantidade hr
      rw [hf.1]
      simp
      linarith
  · intro h
    simp [RD.registrar_saida, show r.saldo_atual ≥ quantidade from h]
  · intro h
    exact (rdSaida_fail r data quantidade (fun hc => h hc)).2

/-- C6: under the permissive sale policy (`sistema_estoque.py`),
`registrar_saida` always decrements the balance and appends the sale
movement, returns `false` exactly when the requested quantity exceeds the
balance before the decrement, and a sale of exactly the current balance
returns `true` and leaves the balance at exactly `0`. -/
theorem c6_permissive_saida (p : SE.Produto) (data : ℕ) (quantidade : ℚ) :
    (SE.registrar_saida p data quantidade).1.saldo_atual = p.saldo_atual - quantidade ∧
    (SE.registrar_saida p data quantidade).1.movimentacoes
      = p.movimentacoes ++ [⟨data, Tipo.S, quantidade, p.saldo_atual - quantidade⟩] ∧
    ((SE.registrar_saida p data quantidade).2 = false ↔ p.saldo_atual < quantidade) ∧
    (quantidade = p.saldo_atual →
      (SE.registrar_saida p data quantidade).2 = true ∧
      (SE.registrar_saida p data quantidade).1.saldo_atual = 0) := by
  refine ⟨by simp [SE.registrar_saida], by simp [SE.registrar_saida], ?_, ?_⟩
  · by_cases h : p.saldo_atual < quantidade <;> simp [SE.registrar_saida, h]
  · intro h
    subst h
    simp [SE.registrar_saida]

/-- C6 witness: a sale of exactly the current balance (5 out of 5) is
flagged as sufficient and leaves the balance at exactly `0`. -/
theorem c6_witness :
    (SE.registrar_saida (SE.registrar_entrada (SE.inicial 1 "corte" 50) 1 5) 2 5).2 = true ∧
    (SE.registrar_saida (SE.registrar_entrada (SE.inicial 1 "corte" 50) 1 5) 2 5).1.saldo_atual
      = 0 :=
  (c6_permissive_saida (SE.registrar_entrada (SE.inicial 1 "corte" 50) 1 5) 2 5).2.2.2
    (by with_unfolding_all decide)

theorem forall2_map_self {α β : Type} (f : α → β) (R : α → β → Prop)
    (h : ∀ a, R a (f a)) (l : List α) : List.Forall₂ R l (l.map f) := by
  induction l with
  | nil => exact List.Forall₂.nil
  | cons a t ih => exact List.Forall₂.cons (h a) ih

theorem seSum_entradas_map (l : List SE.Produto) (d : ℕ) (q : ℚ) :
    ((l.map (fun p => SE.registrar_entrada p d (q * p.percentual / 100))).map
        SE.total_entradas).sum
      = (l.map SE.total_entradas).sum + q * (l.map (fun p => p.percentual)).sum / 100 := by
  induction l with
  | nil => simp
  | cons p t ih =>
    simp only [List.map_cons, List.sum_cons, ih,
      (seTotais_entrada p d (q * p.percentual / 100)).1]
    ring

/-- C3: processing one intake event of quantity `Q` calls
`registrar_entrada` on every configured product with the derived quantity
`Q * percentual / 100` — appending an intake movement of that quantity to
each product's history, a zero-quantity one for `0%` products — so the
total quantity distributed over all products equals
`Q * (sum of percentages) / 100`. -/
theorem c3_intake_fanout (produtos : List SE.Produto) (alertas : Bool) (data : ℕ)
    (quantidade : ℚ) :
    List.Forall₂ (fun p p' =>
        p'.percentual = p.percentual ∧
        p'.saldo_atual = p.saldo_atual + quantidade * p.percentual / 100 ∧
        p'.movimentacoes = p.movimentacoes
          ++ [⟨data, Tipo.E, quantidade * p.percentual / 100,
               p.saldo_atual + quantidade * p.percentual / 100⟩])
      produtos (SE.processar_um (produtos, alertas) ⟨Tipo.E, data, quantidade, none⟩).1 ∧
    ((SE.processar_um (produtos, alertas) ⟨Tipo.E, data, quantidade, none⟩).1.map
        SE.total_entradas).sum
      = (produtos.map SE.total_entradas).sum
        + quantidade * (produtos.map (fun p => p.percentual)).sum / 100 := by
  constructor
  · exact forall2_map_self _ _ (fun p => ⟨rfl, rfl, rfl⟩) produtos
  · exact seSum_entradas_map produtos data quantidade

theorem leData_trans (a b c : Evento) : leData a b → leData b c → leData a c := by
  simp only [leData, decide_eq_true_eq]
  exact Nat.le_trans

theorem leData_total (a b : Evento) : leData a b || leData b a := by
  simp only [leData]
  rcases Nat.le_total a.data b.data with h | h <;> simp [h]

/-- C7: the merger concatenates the intake list before the sale list and
stably sorts on the timestamp only: the result is a permutation of the
input, sorted by date, and any two events in key order in the
concatenated input — in particular any two with identical timestamps —
keep their relative order, regardless of event kind. -/
theorem c7_merger_stable_sort (entradas vendas : List Evento) :
    List.Perm (carregar_movimentacoes entradas vendas) (entradas ++ vendas) ∧
    (carregar_movimentacoes entradas vendas).Pairwise (fun a b => a.data ≤ b.data) ∧
    (∀ a b : Evento, a.data ≤ b.data → List.Sublist [a, b] (entradas ++ vendas) →
      List.Sublist [a, b] (carregar_movimentacoes entradas vendas)) := by
  simp only [carregar_movimentacoes]
  refine ⟨List.mergeSort_perm (entradas ++ vendas) leData, ?_, ?_⟩
  · exact (List.sorted_mergeSort leData_trans leData_total (entradas ++ vendas)).imp
      (fun hab => by simpa [leData] using hab)
  · intro a b hab hsub
    exact List.pair_sublist_mergeSort leData_trans leData_total
      (by simp [leData, hab]) hsub

/-- C7 witness: an intake and a sale sharing day `3`, given in that input
order, stay in that order after the merge. -/
theorem c7_witness :
    List.Sublist [(⟨Tipo.E, 3, 100, none⟩ : Evento), ⟨Tipo.S, 3, 40, some 1⟩]
      (carregar_movimentacoes [⟨Tipo.E, 3, 100, none⟩] [⟨Tipo.S, 3, 40, some 1⟩]) :=
  (c7_merger_stable_sort [⟨Tipo.E, 3, 100, none⟩] [⟨Tipo.S, 3, 40, some 1⟩]).2.2
    ⟨Tipo.E, 3, 100, none⟩ ⟨Tipo.S, 3, 40, some 1⟩ (by with_unfolding_all decide)
    (List.Sublist.refl _)

/-- C10: every intake event is placed before every sale event bearing the
same timestamp, because the loader concatenates the full intake list
ahead of the full sale list and sorts stably on the date key only. -/
theorem c10_intake_before_sale (entradas vendas : List Evento) (a b : Evento)
    (ha : a ∈ entradas) (hb : b ∈ vendas) (hd : a.data = b.data) :
    List.Sublist [a, b] (carregar_movimentacoes entradas vendas) := by
  have hsub : List.Sublist ([a] ++ [b]) (entradas ++ vendas) :=
    List.Sublist.append (List.singleton_sublist.mpr ha) (List.singleton_sublist.mpr hb)
  simp only [carregar_movimentacoes]
  exact List.pair_sublist_mergeSort leData_trans leData_total
    (by simp [leData, hd]) hsub

/-- C10 witness: a day-`7` intake precedes a day-`7` sale in the merged
sequence even when other events surround them. -/
theorem c10_witness :
    List.Sublist [(⟨Tipo.E, 7, 200, none⟩ : Evento), ⟨Tipo.S, 7, 30, some 2⟩]
      (carregar_movimentacoes [⟨Tipo.E, 9, 1, none⟩, ⟨Tipo.E, 7, 200, none⟩]
          [⟨Tipo.S, 7, 30, some 2⟩, ⟨Tipo.S, 5, 2, some 3⟩]) :=
  c10_intake_before_sale [⟨Tipo.E, 9, 1, none⟩, ⟨Tipo.E, 7, 200, none⟩]
    [⟨Tipo.S, 7, 30, some 2⟩, ⟨Tipo.S, 5, 2, some 3⟩] ⟨Tipo.E, 7, 200, none⟩
    ⟨Tipo.S, 7, 30, some 2⟩ (by with_unfolding_all decide) (by with_unfolding_all decide) rfl

/-- C2 witness: with balance `5`, a strict sale of `7` is blocked and
leaves the product unchanged, while one of `5` succeeds. -/
theorem c2_witness :
    (BK.registrar_saida (BK.registrar_entrada (BK.inicial 1 "corte" 50) 1 5) 2 7).1
      = BK.registrar_entrada (BK.inicial 1 "corte" 50) 1 5 ∧
    (RD.registrar_saida (RD.registrar_entrada (RD.inicial 1 "corte" 50) 1 5) 2 5).2 = true := by
  constructor
  · exact (c2_strict_saida (BK.registrar_entrada (BK.inicial 1 "corte" 50) 1 5)
      (RD.inicial 1 "corte" 50) 2 7).2.2.1 (by with_unfolding_all decide)
  · exact (c2_strict_saida (BK.inicial 1 "corte" 50)
      (RD.registrar_entrada (RD.inicial 1 "corte" 50) 1 5) 2 5).2.2.2.2.1.mpr
      (by with_unfolding_all decide)


section LookupLemmas

theorem lookup_mem {β : Type} {m : List (ℕ × β)} {k : ℕ} {v : β}
    (h : m.lookup k = some v) : (k, v) ∈ m := by
  obtain ⟨l₁, l₂, rfl, -⟩ := List.lookup_eq_some_iff.mp h
  simp

theorem keys_lookup_mem {β : Type} {m : List (ℕ × β)} {k : ℕ}
    (h : k ∈ m.map Prod.fst) : ∃ v, m.lookup k = some v ∧ (k, v) ∈ m := by
  cases hc : m.lookup k with
  | none =>
    exfalso
    have hall := List.lookup_eq_none_iff.mp hc
    obtain ⟨p, hp, hfst⟩ := List.mem_map.mp h
    have hne := hall p hp
    simp [hfst] at hne
  | some v => exact ⟨v, rfl, lookup_mem hc⟩

theorem lookup_none_keys {β : Type} {m : List (ℕ × β)} {k j : ℕ}
    (h : m.lookup j = none) (hk : k ∈ m.map Prod.fst) : k ≠ j := by
  intro he
  subst he
  obtain ⟨v, hv, -⟩ := keys_lookup_mem hk
  rw [h] at hv
  exact Option.noConfusion hv

end LookupLemmas

/-- C4 (code-bug demonstration): the same product suffers two shortfall
attempts on day `5`, with missing quantities `5` and then `7`.  The
analyzer tracks day `5` as the worst day with `2` attempts and records
the total missing `12`, yet `falta_no_dia_mais_vendas_negativas` ends at
`7`: each further attempt on the tracked day re-enters the
count-increase branch, which resets the accumulator to the latest
`falta`, so the `elif` accumulate branch the claim describes never runs
and the field does not hold the day's sum `5 + 7 = 12`. -/
theorem c4_worst_day_sum_bug :
    (RD.registrar_saida ((RD.registrar_saida (RD.inicial 1 "corte" 10) 5 5).1) 5 7).1.dia_mais_vendas_negativas
      = some 5 ∧
    (RD.registrar_saida ((RD.registrar_saida (RD.inicial 1 "corte" 10) 5 5).1) 5 7).1.qtd_vendas_negativas_no_dia
      = 2 ∧
    (RD.registrar_saida ((RD.registrar_saida (RD.inicial 1 "corte" 10) 5 5).1) 5 7).1.total_falta_estoque
      = 12 ∧
    (RD.registrar_saida ((RD.registrar_saida (RD.inicial 1 "corte" 10) 5 5).1) 5 7).1.falta_no_dia_mais_vendas_negativas
      = 7 := by
  with_unfolding_all decide

/-- C5 counterexample: with intakes of `50` on day `1` and `50` on day
`2`, a tracked worst day `3` and missing quantity `10`
(`maior_falta_estoque = -10`), the code's attribution percentage is
`10` — it divides by the `100` total of all intakes up to day `3` —
while the claim's formula (divide by the most recent qualifying intake,
`50`) gives `20`. -/
theorem c5_counterexample :
    SE.calcula_percentual_falta (-10) [(1, 50), (2, 50)] 3 = 10 ∧
    claimPctFalta 10 [(1, 50), (2, 50)] 3 = 20 ∧
    (10 : ℚ) ≠ 20 := by
  with_unfolding_all decide

/-- C5 amended: the attribution percentage of `calcula_percentual_falta`
equals `ceil((missing / total_intake) * 100 * 100) / 100` where
`missing = -maior_falta_estoque` and `total_intake` is the SUM of all
recorded intakes on days `≤` the tracked worst day
(`calcular_entradas_ate_data`), not the single most recent qualifying
intake; separately, `encontrar_entrada_do_dia` does return the intake
quantity keyed by the greatest day `≤` the given day, with the sentinel
`0` when no such day exists (its caller guards the division, which in
`calcula_percentual_falta` is unguarded). -/
theorem c5_amended (mf : ℚ) (m : List (ℕ × ℚ)) (dia : ℕ) :
    SE.calcula_percentual_falta mf m dia
      = (⌈-mf / SE.calcular_entradas_ate_data m dia * 100 * 100⌉ : ℚ) / 100 ∧
    ((∃ k v, k ≤ dia ∧ (k, v) ∈ m ∧ (∀ k' ∈ m.map Prod.fst, k' ≤ dia → k' ≤ k) ∧
        RD.encontrar_entrada_do_dia m dia = v) ∨
      ((∀ k ∈ m.map Prod.fst, dia < k) ∧ RD.encontrar_entrada_do_dia m dia = 0)) := by
  constructor
  · have harg : mf * -100 / SE.calcular_entradas_ate_data m dia * 100
        = -mf / SE.calcular_entradas_ate_data m dia * 100 * 100 := by
      rw [div_mul_eq_mul_div, div_mul_eq_mul_div, div_mul_eq_mul_div]
      congr 1
      ring
    simp only [SE.calcula_percentual_falta, harg]
  · cases hcase : m.lookup dia with
    | some v =>
      refine Or.inl ⟨dia, v, le_refl dia, lookup_mem hcase, fun k' _ hle => hle, ?_⟩
      simp [RD.encontrar_entrada_do_dia, hcase]
    | none =>
      cases hmax : ((m.map Prod.fst).filter (fun d => decide (d < dia))).max? with
      | none =>
        refine Or.inr ⟨?_, ?_⟩
        · intro k hk
          have hne : k ≠ dia := lookup_none_keys hcase hk
          have hnlt : ¬ k < dia := by
            intro hlt
            have hmemf : k ∈ (m.map Prod.fst).filter (fun d => decide (d < dia)) :=
              List.mem_filter.mpr ⟨hk, by simpa using hlt⟩
            rw [List.max?_eq_none_iff.mp hmax] at hmemf
            exact (List.not_mem_nil k) hmemf
          omega
        · simp [RD.encontrar_entrada_do_dia, hcase, hmax]
      | some dmax =>
        have hmemf : dmax ∈ (m.map Prod.fst).filter (fun d => decide (d < dia)) :=
          List.max?_mem (fun a b => max_choice a b) hmax
        have hub : ∀ b ∈ (m.map Prod.fst).filter (fun d => decide (d < dia)), b ≤ dmax :=
          (List.max?_le_iff (fun a b c => max_le_iff) hmax).mp (le_refl dmax)
        obtain ⟨hkeys, hlt⟩ := List.mem_filter.mp hmemf
        have hdlt : dmax < dia := by simpa using hlt
        obtain ⟨v, hv, hvm⟩ := keys_lookup_mem hkeys
        refine Or.inl ⟨dmax, v, le_of_lt hdlt, hvm, ?_, ?_⟩
        · intro k' hk' hle
          have hne : k' ≠ dia := lookup_none_keys hcase hk'
          exact hub k' (List.mem_filter.mpr ⟨hk', by simp; omega⟩)
        · simp [RD.encontrar_entrada_do_dia, hcase, hmax, hv]

section RecalibrationLemmas

theorem bkSoma_nonneg (p : BK.Produto) : 0 ≤ BK.soma_problemas p := by
  apply List.sum_nonneg
  intro x hx
  obtain ⟨m, -, rfl⟩ := List.mem_map.mp hx
  exact abs_nonneg m.saldo_apos

theorem bkAjuste_nonneg (p : BK.Produto) : 0 ≤ BK.ajuste_necessario p := by
  unfold BK.ajuste_necessario
  split
  · exact le_refl 0
  · split
    · exact le_refl 0
    · apply le_min
      · apply add_nonneg
        · positivity
        · apply div_nonneg (bkSoma_nonneg p)
          split
          · linarith [show BK.total_saidas p > 0 from by assumption]
          · norm_num
      · norm_num

theorem bkRaw_eq (p : BK.Produto) : BK.percentual_raw p
    = p.percentual * (1 + BK.ajuste_necessario p) := by
  by_cases h : BK.ajuste_necessario p > 0
  · simp [BK.percentual_raw, h]
  · have h0 : BK.ajuste_necessario p = 0 :=
      le_antisymm (not_lt.mp h) (bkAjuste_nonneg p)
    simp [BK.percentual_raw, h, h0]

theorem bkAjuste_claim_eq (p : BK.Produto)
    (hdiv : BK.dias_com_problema p ≠ 0 → 0 < BK.total_saidas p) :
    BK.ajuste_necessario p = claimAjuste p := by
  unfold BK.ajuste_necessario claimAjuste
  split
  · rfl
  · split
    · rfl
    · have hpos : 0 < BK.total_saidas p := hdiv (by assumption)
      rw [if_pos hpos]

end RecalibrationLemmas

/-- C8: the recalibration routine outputs, for each product,
`round2(old * (1 + a) * T / T')` with `a = min(frequency + severity, 1/2)`
for products with a shortfall (`severity = soma_problemas / total_saidas`),
`a = 0` for products without shortfalls or without movements, `T` the sum
of the old percentages and `T'` the sum of the adjusted raw percentages;
the pre-rounding scaled percentages sum back to `T` exactly, so the total
is preserved at the pre-adjustment total (not forced to 100).  Hypotheses:
every shortfall product has positive total sales (otherwise the code
substitutes divisor `1` where the claim's formula divides by
`total_sales`), and `T' ≠ 0` (otherwise Python raises). -/
theorem c8_recalibration (produtos : List BK.Produto)
    (hdiv : ∀ p ∈ produtos, BK.dias_com_problema p ≠ 0 → 0 < BK.total_saidas p)
    (hT : (produtos.map (fun r => r.percentual * (1 + claimAjuste r))).sum ≠ 0) :
    BK.calcular_percentuais_ideais produtos
      = produtos.map (fun p => (p.codigo,
          round2 (p.percentual * (1 + claimAjuste p)
            * ((produtos.map (fun r => r.percentual)).sum
              / (produtos.map (fun r => r.percentual * (1 + claimAjuste r))).sum)))) ∧
    (produtos.map (fun p => p.percentual * (1 + claimAjuste p)
        * ((produtos.map (fun r => r.percentual)).sum
          / (produtos.map (fun r => r.percentual * (1 + claimAjuste r))).sum))).sum
      = (produtos.map (fun r => r.percentual)).sum := by
  have hraw : ∀ p ∈ produtos,
      BK.percentual_raw p = p.percentual * (1 + claimAjuste p) := by
    intro p hp
    rw [bkRaw_eq, bkAjuste_claim_eq p (hdiv p hp)]
  have hmapeq : produtos.map BK.percentual_raw
      = produtos.map (fun r => r.percentual * (1 + claimAjuste r)) :=
    List.map_congr_left hraw
  constructor
  · simp only [BK.calcular_percentuais_ideais, hmapeq]
    exact List.map_congr_left (fun p hp => by rw [hraw p hp])
  · rw [List.sum_map_mul_right, mul_div_assoc']
    rw [mul_comm]
    exact mul_div_cancel_right₀ _ hT

/-- C8 witness: two shortfall-free products at 60% and 40% are returned
at their (rounded) old percentages by the formula of the claim. -/
theorem c8_witness :
    BK.calcular_percentuais_ideais [BK.inicial 1 "corte A" 60, BK.inicial 2 "corte B" 40]
      = [BK.inicial 1 "corte A" 60, BK.inicial 2 "corte B" 40].map (fun p => (p.codigo,
          round2 (p.percentual * (1 + claimAjuste p)
            * (([BK.inicial 1 "corte A" 60, BK.inicial 2 "corte B" 40].map
                  (fun r => r.percentual)).sum
              / ([BK.inicial 1 "corte A" 60, BK.inicial 2 "corte B" 40].map
                  (fun r => r.percentual * (1 + claimAjuste r))).sum)))) :=
  (c8_recalibration [BK.inicial 1 "corte A" 60, BK.inicial 2 "corte B" 40]
    (by with_unfolding_all decide) (by with_unfolding_all decide)).1

section FifoLemmas

/-- Total quantity allocated by a record list (to whatever lot or sale). -/
def sumKg (recs : List AllocRec) : ℚ := (recs.map (fun r => r.allocKg)).sum

theorem eps_pos : 0 < eps := by norm_num [eps]

theorem sumLot_nil (i : ℕ) : sumLot i [] = 0 := rfl

theorem sumLot_cons (i : ℕ) (r : AllocRec) (recs : List AllocRec) :
    sumLot i (r :: recs) = (if r.entryIdx = i then r.allocKg else 0) + sumLot i recs := by
  by_cases h : r.entryIdx = i <;> simp [sumLot, List.filter_cons, h]

theorem sumLot_append (i : ℕ) (a b : List AllocRec) :
    sumLot i (a ++ b) = sumLot i a + sumLot i b := by
  simp [sumLot, List.filter_append]

theorem sumSale_nil (o : ℕ) : sumSale o [] = 0 := rfl

theorem sumSale_append (o : ℕ) (a b : List AllocRec) :
    sumSale o (a ++ b) = sumSale o a + sumSale o b := by
  simp [sumSale, List.filter_append]

theorem sumSale_all (o : ℕ) (recs : List AllocRec) (h : ∀ r ∈ recs, r.outIdx = o) :
    sumSale o recs = sumKg recs := by
  unfold sumSale sumKg
  rw [List.filter_eq_self.mpr]
  intro r hr
  simp [h r hr]

theorem sumSale_none (o : ℕ) (recs : List AllocRec) (h : ∀ r ∈ recs, r.outIdx ≠ o) :
    sumSale o recs = 0 := by
  unfold sumSale
  rw [List.filter_eq_nil_iff.mpr]
  · rfl
  · intro r hr
    simp [h r hr]

theorem remOf_nil (i : ℕ) : remOf i [] = 0 := rfl

theorem remOf_cons (i : ℕ) (l : Lot) (lots : List Lot) :
    remOf i (l :: lots) = (if l.1 = i then l.2.2 else 0) + remOf i lots := by
  by_cases h : l.1 = i <;> simp [remOf, List.filter_cons, h]

theorem remOf_nonneg (i : ℕ) (lots : List Lot) (hw : ∀ l ∈ lots, 0 ≤ l.2.2) :
    0 ≤ remOf i lots := by
  apply List.sum_nonneg
  intro x hx
  obtain ⟨l, hl, rfl⟩ := List.mem_map.mp hx
  exact hw l (List.mem_filter.mp hl).1

theorem allocSale_wf (o : ℕ) (need : ℚ) (lots : List Lot)
    (hw : ∀ l ∈ lots, 0 ≤ l.2.2) :
    ∀ l ∈ (allocSale o need lots).2, 0 ≤ l.2.2 := by
  induction lots generalizing need with
  | nil => simp [allocSale]
  | cons hd rest ih =>
    obtain ⟨i, q, remain⟩ := hd
    simp only [allocSale]
    by_cases h1 : eps < need
    · rw [if_pos h1]
      by_cases h2 : remain - min need remain ≤ eps
      · rw [if_pos h2]
        exact fun l hl =>
          ih (need - min need remain) (fun l' hl' => hw l' (List.mem_cons_of_mem _ hl')) l hl
      · rw [if_neg h2]
        intro l hl
        rcases List.mem_cons.mp hl with rfl | hl'
        · show 0 ≤ remain - min need remain
          linarith [min_le_right need remain]
        · exact hw l (List.mem_cons_of_mem _ hl')
    · rw [if_neg h1]
      exact hw

theorem allocSale_lot_le (o : ℕ) (need : ℚ) (lots : List Lot) (i : ℕ) :
    sumLot i (allocSale o need lots).1 + remOf i (allocSale o need lots).2
      ≤ remOf i lots := by
  induction lots generalizing need with
  | nil => simp [allocSale, sumLot_nil, remOf_nil]
  | cons hd rest ih =>
    obtain ⟨j, q, remain⟩ := hd
    simp only [allocSale]
    by_cases h1 : eps < need
    · rw [if_pos h1]
      by_cases h2 : remain - min need remain ≤ eps
      · rw [if_pos h2]
        have ihr := ih (need - min need remain)
        have hmr : min need remain ≤ remain := min_le_right _ _
        by_cases hj : j = i
        · simp only [sumLot_cons, remOf_cons]
          simp [hj]
          linarith
        · simp only [sumLot_cons, remOf_cons]
          simp [hj]
          linarith
      · rw [if_neg h2]
        have hmr : min need remain ≤ remain := min_le_right _ _
        by_cases hj : j = i
        · simp [sumLot_cons, sumLot_nil, remOf_cons, hj]
          linarith
        · simp [sumLot_cons, sumLot_nil, remOf_cons, hj]
    · rw [if_neg h1]
      simp [sumLot_nil]

theorem allocSales_lot_le (vendas : List (ℕ × ℚ)) (lots : List Lot) (i : ℕ) :
    sumLot i (allocSales vendas lots).1 + remOf i (allocSales vendas lots).2
      ≤ remOf i lots := by
  induction vendas generalizing lots with
  | nil => simp [allocSales, sumLot_nil]
  | cons v rest ih =>
    obtain ⟨oi, need⟩ := v
    simp only [allocSales, sumLot_append]
    have h1 := allocSale_lot_le oi need lots i
    have h2 := ih (allocSale oi need lots).2
    linarith

theorem allocSales_wf (vendas : List (ℕ × ℚ)) (lots : List Lot)
    (hw : ∀ l ∈ lots, 0 ≤ l.2.2) :
    ∀ l ∈ (allocSales vendas lots).2, 0 ≤ l.2.2 := by
  induction vendas generalizing lots with
  | nil => simpa [allocSales] using hw
  | cons v rest ih =>
    obtain ⟨oi, need⟩ := v
    simp only [allocSales]
    exact ih (allocSale oi need lots).2 (allocSale_wf oi need lots hw)

theorem allocSale_outIdx (o : ℕ) (need : ℚ) (lots : List Lot) :
    ∀ r ∈ (allocSale o need lots).1, r.outIdx = o := by
  induction lots generalizing need with
  | nil => simp [allocSale]
  | cons hd rest ih =>
    obtain ⟨j, q, remain⟩ := hd
    simp only [allocSale]
    by_cases h1 : eps < need
    · rw [if_pos h1]
      by_cases h2 : remain - min need remain ≤ eps
      · rw [if_pos h2]
        intro r hr
        rcases List.mem_cons.mp hr with rfl | hr'
        · rfl
        · exact ih (need - min need remain) r hr'
      · rw [if_neg h2]
        intro r hr
        rcases List.mem_cons.mp hr with rfl | hr'
        · rfl
        · simp at hr'
    · rw [if_neg h1]
      simp

theorem allocSales_outIdx (vendas : List (ℕ × ℚ)) (lots : List Lot) :
    ∀ r ∈ (allocSales vendas lots).1, r.outIdx ∈ vendas.map Prod.fst := by
  induction vendas generalizing lots with
  | nil => simp [allocSales]
  | cons v rest ih =>
    obtain ⟨oi, need⟩ := v
    simp only [allocSales]
    intro r hr
    rcases List.mem_append.mp hr with hr' | hr'
    · simp [allocSale_outIdx oi need lots r hr']
    · simp only [List.map_cons, List.mem_cons]
      exact Or.inr (ih (allocSale oi need lots).2 r hr')

theorem allocSale_sum_le (o : ℕ) (need : ℚ) (lots : List Lot) (h0 : 0 ≤ need)
    (hw : ∀ l ∈ lots, 0 ≤ l.2.2) :
    sumKg (allocSale o need lots).1 ≤ need := by
  induction lots generalizing need with
  | nil => simpa [allocSale, sumKg] using h0
  | cons hd rest ih =>
    obtain ⟨j, q, remain⟩ := hd
    simp only [allocSale]
    by_cases h1 : eps < need
    · have hr0 : 0 ≤ remain := hw (j, q, remain) (List.mem_cons_self _ _)
      have htn : min need remain ≤ need := min_le_left _ _
      rw [if_pos h1]
      by_cases h2 : remain - min need remain ≤ eps
      · rw [if_pos h2]
        have ihr := ih (need - min need remain) (by linarith)
          (fun l' hl' => hw l' (List.mem_cons_of_mem _ hl'))
        simp only [sumKg, List.map_cons, List.sum_cons] at ihr ⊢
        linarith
      · rw [if_neg h2]
        simp only [sumKg, List.map_cons, List.map_nil, List.sum_cons, List.sum_nil]
        linarith
    · rw [if_neg h1]
      simpa [sumKg] using h0

theorem allocSale_exhaust (o : ℕ) (need : ℚ) (lots : List Lot) :
    (allocSale o need lots).2 ≠ [] →
    need - sumKg (allocSale o need lots).1 ≤ eps := by
  induction lots generalizing need with
  | nil => simp [allocSale]
  | cons hd rest ih =>
    obtain ⟨j, q, remain⟩ := hd
    simp only [allocSale]
    by_cases h1 : eps < need
    · rw [if_pos h1]
      by_cases h2 : remain - min need remain ≤ eps
      · rw [if_pos h2]
        intro hne
        have ihr := ih (need - min need remain) hne
        simp only [sumKg, List.map_cons, List.sum_cons] at ihr ⊢
        linarith
      · rw [if_neg h2]
        intro hne
        have hmin : min need remain = need := by
          rcases min_choice need remain with hc | hc
          · exact hc
          · exfalso
            apply h2
            rw [hc]
            linarith [eps_pos]
        simp only [sumKg, List.map_cons, List.map_nil, List.sum_cons, List.sum_nil, hmin]
        linarith [eps_pos]
    · rw [if_neg h1]
      intro hne
      simp only [sumKg, List.map_nil, List.sum_nil]
      linarith [not_lt.mp h1]

theorem allocSales_nil (vendas : List (ℕ × ℚ)) :
    allocSales vendas ([] : List Lot) = ([], []) := by
  induction vendas with
  | nil => rfl
  | cons v rest ih =>
    obtain ⟨oi, need⟩ := v
    simp [allocSales, allocSale, ih]

end FifoLemmas

section FifoMainLemmas

theorem allocSales_sale_le (vendas : List (ℕ × ℚ)) (lots : List Lot)
    (hw : ∀ l ∈ lots, 0 ≤ l.2.2) (hq : ∀ v ∈ vendas, 0 ≤ v.2)
    (hnd : (vendas.map Prod.fst).Nodup) :
    ∀ o q, (o, q) ∈ vendas → sumSale o (allocSales vendas lots).1 ≤ q := by
  induction vendas generalizing lots with
  | nil =>
    intro o q h
    simp at h
  | cons v rest ih =>
    obtain ⟨oi, need⟩ := v
    simp only [List.map_cons, List.nodup_cons] at hnd
    intro o q hoq
    simp only [allocSales, sumSale_append]
    rcases List.mem_cons.mp hoq with he | hrest
    · rw [Prod.ext_iff] at he
      obtain ⟨h1, h2⟩ := he
      subst h1
      subst h2
      have hA : sumSale o (allocSale o q lots).1 = sumKg (allocSale o q lots).1 :=
        sumSale_all _ _ (allocSale_outIdx _ _ _)
      have hB : sumSale o (allocSales rest (allocSale o q lots).2).1 = 0 := by
        apply sumSale_none
        intro r hr
        have hmem := allocSales_outIdx rest _ r hr
        intro hc
        rw [hc] at hmem
        exact hnd.1 hmem
      rw [hA, hB]
      have hle := allocSale_sum_le o q lots (hq (o, q) (List.mem_cons_self _ _)) hw
      linarith
    · have homem : o ∈ rest.map Prod.fst := List.mem_map.mpr ⟨(o, q), hrest, rfl⟩
      have hA : sumSale o (allocSale oi need lots).1 = 0 := by
        apply sumSale_none
        intro r hr
        rw [allocSale_outIdx oi need lots r hr]
        intro hc
        rw [hc] at hnd
        exact hnd.1 homem
      rw [hA]
      have := ih (allocSale oi need lots).2 (allocSale_wf _ _ _ hw)
        (fun v hv => hq v (List.mem_cons_of_mem _ hv)) hnd.2 o q hrest
      linarith

theorem allocSales_exhaust (vendas : List (ℕ × ℚ)) (lots : List Lot)
    (hnd : (vendas.map Prod.fst).Nodup)
    (hne : (allocSales vendas lots).2 ≠ []) :
    ∀ o q, (o, q) ∈ vendas → q - sumSale o (allocSales vendas lots).1 ≤ eps := by
  induction vendas generalizing lots with
  | nil =>
    intro o q h
    simp at h
  | cons v rest ih =>
    obtain ⟨oi, need⟩ := v
    simp only [List.map_cons, List.nodup_cons] at hnd
    have hst : (allocSale oi need lots).2 ≠ [] := by
      intro h0
      apply hne
      simp only [allocSales, h0, allocSales_nil]
    have hne' : (allocSales rest (allocSale oi need lots).2).2 ≠ [] := by
      intro hc
      apply hne
      simp only [allocSales]
      exact hc
    intro o q hoq
    simp only [allocSales, sumSale_append]
    rcases List.mem_cons.mp hoq with he | hrest
    · rw [Prod.ext_iff] at he
      obtain ⟨h1, h2⟩ := he
      subst h1
      subst h2
      have hA : sumSale o (allocSale o q lots).1 = sumKg (allocSale o q lots).1 :=
        sumSale_all _ _ (allocSale_outIdx _ _ _)
      have hB : sumSale o (allocSales rest (allocSale o q lots).2).1 = 0 := by
        apply sumSale_none
        intro r hr
        have hmem := allocSales_outIdx rest _ r hr
        intro hc
        rw [hc] at hmem
        exact hnd.1 hmem
      rw [hA, hB]
      have hle := allocSale_exhaust o q lots hst
      linarith
    · have homem : o ∈ rest.map Prod.fst := List.mem_map.mpr ⟨(o, q), hrest, rfl⟩
      have hA : sumSale o (allocSale oi need lots).1 = 0 := by
        apply sumSale_none
        intro r hr
        rw [allocSale_outIdx oi need lots r hr]
        intro hc
        rw [hc] at hnd
        exact hnd.1 homem
      rw [hA]
      have := ih (allocSale oi need lots).2 hnd.2 hne' o q hrest
      linarith

theorem remOf_enumFrom (qtys : List ℚ) : ∀ (n i : ℕ),
    remOf i ((qtys.enumFrom n).map (fun e => (e.1, e.2, e.2)))
      = if n ≤ i then qtys.getD (i - n) 0 else 0 := by
  induction qtys with
  | nil =>
    intro n i
    simp [remOf_nil, List.enumFrom]
  | cons x t ih =>
    intro n i
    simp only [List.enumFrom, List.map_cons, remOf_cons]
    rw [ih (n + 1) i]
    by_cases h1 : n = i
    · subst h1
      simp
    · by_cases h2 : n ≤ i
      · have h2' : n + 1 ≤ i := by omega
        have h3 : i - n = (i - (n + 1)) + 1 := by omega
        simp [h1, h2, h2', h3]
      · have h2' : ¬ n + 1 ≤ i := by omega
        simp [h1, h2, h2']

theorem remOf_initLots (qtys : List ℚ) (i : ℕ) :
    remOf i (initLots qtys) = qtys.getD i 0 := by
  have h := remOf_enumFrom qtys 0 i
  simpa [initLots, List.enum] using h

theorem initLots_wf (qtys : List ℚ) (h : ∀ q ∈ qtys, 0 ≤ q) :
    ∀ l ∈ initLots qtys, 0 ≤ l.2.2 := by
  intro l hl
  obtain ⟨e, he, rfl⟩ := List.mem_map.mp hl
  have hsnd : e.2 ∈ (qtys.enum).map Prod.snd := List.mem_map_of_mem _ he
  simp only [List.enum, List.enumFrom_map_snd] at hsnd
  exact h e.2 hsnd

end FifoMainLemmas

/-- C9: for the FIFO cut allocator over nonnegative intake-lot and sale
quantities — (1) the remaining-quantity view of the initial lot state
matches each lot's quantity; (2) the total allocated from each lot never
exceeds that lot's quantity; (3) the total allocated to each sale never
exceeds that sale's quantity; (4) when the lots are not exhausted at the
end, every sale is filled up to the `1e-9` consumption tolerance;
(5) demand arriving after the lots are exhausted is dropped without
error (allocating against no lots yields nothing); and (6) a single sale
can span multiple lots (the spec's scenario: lots `50, 50`, one sale of
`90` → `50` from lot `0` and `40` from lot `1`). -/
theorem c9_fifo_invariants (inQtys outQtys : List ℚ)
    (hin : ∀ q ∈ inQtys, 0 ≤ q) (hout : ∀ q ∈ outQtys, 0 ≤ q) :
    (∀ i, remOf i (initLots inQtys) = inQtys.getD i 0) ∧
    (∀ i, sumLot i (fifoAlloc inQtys outQtys).1 ≤ inQtys.getD i 0) ∧
    (∀ o q, (o, q) ∈ outQtys.enum → sumSale o (fifoAlloc inQtys outQtys).1 ≤ q) ∧
    ((fifoAlloc inQtys outQtys).2 ≠ [] →
      ∀ o q, (o, q) ∈ outQtys.enum →
        q - sumSale o (fifoAlloc inQtys outQtys).1 ≤ eps) ∧
    (∀ vendas, allocSales vendas ([] : List Lot) = ([], [])) ∧
    (fifoAlloc [50, 50] [90]).1 = [⟨0, 50, 0, 50⟩, ⟨1, 50, 0, 40⟩] := by
  have hwf : ∀ l ∈ initLots inQtys, 0 ≤ l.2.2 := initLots_wf inQtys hin
  have hq : ∀ v ∈ outQtys.enum, 0 ≤ v.2 := by
    intro v hv
    have hsnd : v.2 ∈ (outQtys.enum).map Prod.snd := List.mem_map_of_mem _ hv
    simp only [List.enum, List.enumFrom_map_snd] at hsnd
    exact hout v.2 hsnd
  have hnd : (outQtys.enum.map Prod.fst).Nodup := by
    simp only [List.enum, List.enumFrom_map_fst]
    exact List.nodup_range' 0 outQtys.length
  refine ⟨fun i => remOf_initLots inQtys i, ?_, ?_, ?_, allocSales_nil, ?_⟩
  · intro i
    have h1 := allocSales_lot_le outQtys.enum (initLots inQtys) i
    have h2 : 0 ≤ remOf i (fifoAlloc inQtys outQtys).2 :=
      remOf_nonneg i _ (allocSales_wf outQtys.enum (initLots inQtys) hwf)
    have h3 := remOf_initLots inQtys i
    simp only [fifoAlloc] at h2 ⊢
    linarith
  · intro o q hoq
    exact allocSales_sale_le outQtys.enum (initLots inQtys) hwf hq hnd o q hoq
  · intro hne o q hoq
    exact allocSales_exhaust outQtys.enum (initLots inQtys) hnd hne o q hoq
  · with_unfolding_all decide

/-- C9 witness: on the spec's scenario (lots `50, 50`, one sale of `90`)
the lot-`0` allocation total is bounded by the lot quantity `50`. -/
theorem c9_witness :
    sumLot 0 (fifoAlloc [50, 50] [90]).1 ≤ ([50, 50] : List ℚ).getD 0 0 :=
  (c9_fifo_invariants [50, 50] [90] (by with_unfolding_all decide)
    (by with_unfolding_all decide)).2.1 0
